import Mathlib

/-!
Shallow embedding of the core of `lolcat.go` (codeka/lolcat): the circular
log buffer (`LogBuffer`), filtered views (`LogView`), the ingestion and
debounce loop of `Device.Open`, and the Unicode-aware input widget
(`EditBox`).

Modelling conventions:
* Go slices become `List`s; Go `int`/`int64` become `Int` (no quantity in
  these claims approaches 64-bit overflow).
* In-place mutation becomes explicit state passing: a Go method on `*T`
  becomes a Lean function `T → ... → T`.
* A Go runtime fault (out-of-range slice index, `make` with a negative
  length) aborts the program; the functions of the source that can fault
  return `Option` here, with `none` standing for the fault.
* External collaborators are abstracted at their call boundary: the result
  of `regexp.Compile` is passed in as an `Option (String → Bool)` (`none`
  models a compile error, `some f` a compiled regex with matcher `f`); the
  `time.Now()` readings of the ingestion goroutine become explicit arrival
  timestamps in nanoseconds; the send on the `ping` channel becomes a
  `Bool` output ("one ping was sent").
-/

namespace Lolcat

/-- `LogBuffer` from lolcat.go: a fixed-size circular buffer of log lines.
`lines` has fixed length (the capacity), `nextLineIndex` is the slot that
the next line will be written to, and `lineNo` is the 1-based line number
of the most recently appended line (0 when empty). -/
structure LogBuffer where
  lines : List String
  nextLineIndex : Int
  lineNo : Int
deriving Repr, DecidableEq

/-- The buffer a fresh `NewDevice` carries: `make([]string, c)` (Go zero
value `""` in every slot), `nextLineIndex: 0`, `lineNo: 0`. -/
def emptyBuffer (c : Nat) : LogBuffer :=
  { lines := List.replicate c "", nextLineIndex := 0, lineNo := 0 }

/-- The buffer part of `Device.appendLine`: write `line` at
`nextLineIndex`, increment `lineNo`, advance `nextLineIndex`, wrapping it
to 0 once it reaches `len(lines)`.  (In Go the write would fault if
`nextLineIndex` were outside the slice; in every state reachable from
`emptyBuffer c` with `0 < c` it is in range.) -/
def LogBuffer.appendLine (lb : LogBuffer) (line : String) : LogBuffer :=
  let lines' := lb.lines.set lb.nextLineIndex.toNat line
  let n' := lb.nextLineIndex + 1
  { lines := lines'
    lineNo := lb.lineNo + 1
    nextLineIndex := if (lb.lines.length : Int) ≤ n' then 0 else n' }

/-- The buffer obtained by appending the lines `xs`, in order, to an empty
buffer of capacity `c`. -/
def buildBuffer (c : Nat) (xs : List String) : LogBuffer :=
  xs.foldl LogBuffer.appendLine (emptyBuffer c)

/-- `LogBuffer.LineNoToIndex` from lolcat.go, verbatim:
```
index := lb.nextLineIndex - int(lb.lineNo-lineNo) - 1
if index < 0 { index += len(lb.lines) }
if index < 0 || index >= len(lb.lines) { return -1 }
return index
``` -/
def LogBuffer.LineNoToIndex (lb : LogBuffer) (lineNo : Int) : Int :=
  let index := lb.nextLineIndex - (lb.lineNo - lineNo) - 1
  let index := if index < 0 then index + (lb.lines.length : Int) else index
  if index < 0 ∨ (lb.lines.length : Int) ≤ index then -1 else index

/-- `LogBuffer.GetLastLineNo` from lolcat.go. -/
def LogBuffer.GetLastLineNo (lb : LogBuffer) : Int :=
  lb.lineNo

/-- The descending list of line numbers `[to, to-1, ..., f+1]` that the
loop of `LogBuffer.GetLines` walks. -/
def descRange (upto f : Int) : List Int :=
  (List.range (upto - f).toNat).map (fun i => upto - Int.ofNat i)

/-- The loop body of `LogBuffer.GetLines`: resolve each line number in
turn, stopping at the first one `LineNoToIndex` reports as `-1`.  Returns
the prefix of slots actually copied out. -/
def getLinesLoop (lb : LogBuffer) : List Int → List String
  | [] => []
  | n :: rest =>
    let idx := lb.LineNoToIndex n
    if idx < 0 then []
    else lb.lines.getD idx.toNat "" :: getLinesLoop lb rest

/-- `LogBuffer.GetLines` from lolcat.go.  Clamps a negative `from` to 0,
returns `[]` when `from == to`, otherwise allocates
`res := make([]string, to-from)` (every slot the Go zero value `""`; a
negative length faults, modelled `none`) and fills `res` front to back
walking line numbers downward from `to`, breaking at the first number
`LineNoToIndex` cannot resolve — so the unfilled tail of `res` keeps its
`""` slots. -/
def LogBuffer.GetLines (lb : LogBuffer) (fro upto : Int) : Option (List String) :=
  let f := if fro < 0 then 0 else fro
  if f = upto then some []
  else if upto - f < 0 then none
  else
    let filled := getLinesLoop lb (descRange upto f)
    some (filled ++ List.replicate ((upto - f).toNat - filled.length) "")

/-- `LogView` from lolcat.go.  The Go struct also holds `lb *LogBuffer`, a
pointer to the owning device's buffer; the pointer dereference is modelled
by passing the current buffer explicitly to the operations that read it.
`filter` holds the outcome of `regexp.Compile` on the committed expression
(`none` after a compile error), abstracted as a match predicate. -/
structure LogView where
  Name : String
  filter : Option (String → Bool)
  index : List Int

/-- `Device` from lolcat.go (the `ID`/`Name` strings, the mutex and the
`ping` channel object itself are irrelevant to the claims; the channel
send shows up as the `Bool` result of `Device.appendLine`). -/
structure Device where
  logBuffer : LogBuffer
  logViews : List LogView
  waiting : Bool

/-- `Device.appendLine` from lolcat.go: append to the buffer under the
mutex, then `if d.waiting { d.ping <- 1 }`.  The returned `Bool` is
whether that ping was sent. -/
def Device.appendLine (d : Device) (line : String) : Device × Bool :=
  ({ d with logBuffer := d.logBuffer.appendLine line }, d.waiting)

/-- The display-name computation at the top of `LogView.UpdateFilter`:
`[]rune(str)` truncated to 16 runes with `"..."`, `"<empty>"` for an empty
expression.  (Go assigns this before compiling and overwrites it with
`"#ERR#"` on a compile error; the model computes the same net result.) -/
def filterName (str : String) : String :=
  let runes := str.toList
  if runes.length = 0 then "<empty>"
  else if 16 < runes.length then String.mk (runes.take 16) ++ "..."
  else str

/-- The ascending window of line numbers scanned by the rebuild loop of
`LogView.UpdateFilter`: `for no := lb.lineNo - len(lb.lines); no <= lb.lineNo; no++`,
i.e. the `len(lb.lines) + 1` numbers from `lineNo - capacity` up to
`lineNo`. -/
def windowNos (lb : LogBuffer) : List Int :=
  (List.range (lb.lines.length + 1)).map
    (fun i => lb.lineNo - (lb.lines.length : Int) + Int.ofNat i)

/-- The rebuild loop of `LogView.UpdateFilter`: skip `no <= 0`; otherwise
resolve `no` and keep it when `lv.filter == nil` (a nil filter
short-circuits the `||`, so the slot is not read) or when the compiled
filter matches the slot's text.  With a non-nil filter Go reads
`lb.lines[index]` without checking `index`, so a `-1` from `LineNoToIndex`
faults (`none`). -/
def scanWindow (lb : LogBuffer) (filt : Option (String → Bool)) :
    List Int → Option (List Int)
  | [] => some []
  | no :: rest =>
    if no ≤ 0 then scanWindow lb filt rest
    else
      match filt with
      | none => (scanWindow lb filt rest).map (no :: ·)
      | some f =>
        let idx := lb.LineNoToIndex no
        if idx < 0 then none
        else if f (lb.lines.getD idx.toNat "") then
          (scanWindow lb filt rest).map (no :: ·)
        else scanWindow lb filt rest

/-- `LogView.UpdateFilter` from lolcat.go.  `compiled` is the outcome of
`regexp.Compile(str)` (`none` = compile error).  Sets the display name
(the error marker `"#ERR#"` on a compile error), stores the filter, and
rebuilds `index` from scratch over the scan window. -/
def updateFilter (lb : LogBuffer) (compiled : Option (String → Bool))
    (str : String) (lv : LogView) : Option LogView :=
  let name := match compiled with
    | none => "#ERR#"
    | some _ => filterName str
  (scanWindow lb compiled (windowNos lb)).map
    (fun idx => { lv with Name := name, filter := compiled, index := idx })

/-- The loop of `LogView.GetLines`, scanning `lv.index` from its end
(`revIndex` is the reversed index).  `ri` is the write position into the
preallocated result `res`; entries above `bottom` are skipped, the first
unresolvable entry breaks, and `res[ri]` with `ri < 0` faults (`none`) —
in Go the bounds check fires before `ri` is tested. -/
def viewLoop (lb : LogBuffer) (bottom : Int) :
    List Int → Int → List String → Option (List String)
  | [], _, res => some res
  | n :: rest, ri, res =>
    if bottom < n then viewLoop lb bottom rest ri res
    else
      let idx := lb.LineNoToIndex n
      if idx < 0 then some res
      else if ri < 0 then none
      else
        let res' := res.set ri.toNat (lb.lines.getD idx.toNat "")
        if ri - 1 < 0 then some res' else viewLoop lb bottom rest (ri - 1) res'

/-- `LogView.GetLines` from lolcat.go: allocate
`res := make([]string, count)` (negative `count` faults, modelled `none`;
every slot starts as `""`), then fill `res` back to front from the newest
matched line numbers `<= bottom` that still resolve in the buffer `lb`
(the dereference of the view's `lb` pointer). -/
def LogView.GetLines (lv : LogView) (lb : LogBuffer) (bottom : Int)
    (count : Int) : Option (List String) :=
  if count < 0 then none
  else viewLoop lb bottom lv.index.reverse (count - 1)
    (List.replicate count.toNat "")

/-- The per-source ingestion state of the goroutine in `Device.Open`: the
device plus the goroutine-local `lastTime` (nanoseconds). -/
structure Ingest where
  dev : Device
  lastTime : Int

/-- One iteration of the scanner loop in `Device.Open`, for a line that
arrives at time `t` (`time.Now().UnixNano()`): while not yet `waiting`,
compare the gap against the 500 ms threshold and arm when it is exceeded,
updating `lastTime`; then `appendLine`, whose ping (sent exactly when the
device is armed at append time) is the `Bool` result. -/
def ingestStep (s : Ingest) (t : Int) (line : String) : Ingest × Bool :=
  let s₁ :=
    if s.dev.waiting then s
    else
      { dev := { s.dev with waiting := decide (500000000 < t - s.lastTime) }
        lastTime := t }
  let r := s₁.dev.appendLine line
  ({ s₁ with dev := r.1 }, r.2)

/-- The scanner loop of `Device.Open` run over a whole trace of arrivals
`(timestamp, line)`, collecting the ping emitted (or not) at each step. -/
def ingestRun (s : Ingest) : List (Int × String) → Ingest × List Bool
  | [] => (s, [])
  | (t, line) :: evs =>
    let r := ingestStep s t line
    let rest := ingestRun r.1 evs
    (rest.1, r.2 :: rest.2)

/-- A trace of arrivals whose inter-arrival gaps (starting from `t0`, the
`time.Now()` taken just before the scanner loop) never exceed the 500 ms
threshold: a "burst". -/
def subThreshold (t0 : Int) : List (Int × String) → Bool
  | [] => true
  | (t, _) :: evs => decide (t - t0 ≤ 500000000) && subThreshold t evs

/-- `NewDevice` from lolcat.go (the `ID`/`Name` strings aside): a fresh
buffer of capacity `c`, no views, and `waiting: false` — every source
starts Quiet. -/
def newDevice (c : Nat) : Device :=
  { logBuffer := emptyBuffer c, logViews := [], waiting := false }

/-- What `LogBuffer.GetLines` actually returns (the amended C4): clamp
`fro` to 0, then walk line numbers downward from `upto`; the longest
prefix of that walk that resolves is copied out newest FIRST, and the
rest of the fixed-size result keeps its `""` slots. -/
def rangeModel (lb : LogBuffer) (fro upto : Int) : List String :=
  let f := max fro 0
  let pre := (descRange upto f).takeWhile (fun n => decide (0 ≤ lb.LineNoToIndex n))
  pre.map (fun n => lb.lines.getD (lb.LineNoToIndex n).toNat "")
    ++ List.replicate ((upto - f).toNat - pre.length) ""

/-- A matched line number qualifies for the displayed tail when it is at
or below the requested bottom line and still resolves in the buffer. -/
def qualifies (lb : LogBuffer) (bottom n : Int) : Bool :=
  decide (n ≤ bottom ∧ 0 ≤ lb.LineNoToIndex n)

/-- The text `LogView.GetLines` copies out for a resolvable line number. -/
def slotText (lb : LogBuffer) (n : Int) : String :=
  lb.lines.getD (lb.LineNoToIndex n).toNat ""

/-! ### The input widget: UTF-8 and `EditBox`

`EditBox` stores its text as a Go `[]byte` — here a `List Nat` of byte
values.  `unicode/utf8`'s `EncodeRune`, `DecodeRune` and `DecodeLastRune`
and go-runewidth's `RuneWidth` are external collaborators of the source,
modelled below from their documented behaviour.  The decoders follow Go's
accept-range logic (a C0/C1 or out-of-range leading byte, an overlong
encoding, a surrogate, or a value above U+10FFFF yields
`(RuneError, 1)`); arithmetic with `/`, `%` and `+` replaces Go's
equivalent shift-and-mask forms. -/

/-- `utf8.RuneError` (U+FFFD). -/
def runeError : Nat := 0xFFFD

/-- `utf8.EncodeRune` for a valid scalar value (a Lean `Char` is always
one): the standard 1–4 byte UTF-8 encoding. -/
def utf8EncodeChar (c : Char) : List Nat :=
  let v := c.toNat
  if v < 0x80 then [v]
  else if v < 0x800 then [0xC0 + v / 64, 0x80 + v % 64]
  else if v < 0x10000 then
    [0xE0 + v / 4096, 0x80 + v / 64 % 64, 0x80 + v % 64]
  else
    [0xF0 + v / 262144, 0x80 + v / 4096 % 64, 0x80 + v / 64 % 64, 0x80 + v % 64]

/-- A UTF-8 continuation byte (`10xxxxxx`). -/
def isCont (b : Nat) : Prop :=
  0x80 ≤ b ∧ b ≤ 0xBF

instance (b : Nat) : Decidable (isCont b) := by
  unfold isCont
  infer_instance

/-- `utf8.DecodeRune`'s accept range for the byte after a three-byte
leading byte (rejects overlong encodings and surrogates). -/
def accept3 (b0 b1 : Nat) : Prop :=
  (b0 = 0xE0 ∧ 0xA0 ≤ b1 ∧ b1 ≤ 0xBF)
  ∨ (b0 ≠ 0xE0 ∧ b0 ≠ 0xED ∧ 0x80 ≤ b1 ∧ b1 ≤ 0xBF)
  ∨ (b0 = 0xED ∧ 0x80 ≤ b1 ∧ b1 ≤ 0x9F)

instance (b0 b1 : Nat) : Decidable (accept3 b0 b1) := by
  unfold accept3
  infer_instance

/-- `utf8.DecodeRune`'s accept range for the byte after a four-byte
leading byte (rejects overlong encodings and values above U+10FFFF). -/
def accept4 (b0 b1 : Nat) : Prop :=
  (b0 = 0xF0 ∧ 0x90 ≤ b1 ∧ b1 ≤ 0xBF)
  ∨ ((b0 = 0xF1 ∨ b0 = 0xF2 ∨ b0 = 0xF3) ∧ 0x80 ≤ b1 ∧ b1 ≤ 0xBF)
  ∨ (b0 = 0xF4 ∧ 0x80 ≤ b1 ∧ b1 ≤ 0x8F)

instance (b0 b1 : Nat) : Decidable (accept4 b0 b1) := by
  unfold accept4
  infer_instance

/-- `utf8.DecodeRune`: the first rune of `p` and its width in bytes;
`(RuneError, 0)` on empty input, `(RuneError, 1)` on malformed or short
input. -/
def decodeRune (p : List Nat) : Nat × Nat :=
  match p with
  | [] => (runeError, 0)
  | b0 :: rest =>
    if b0 < 0x80 then (b0, 1)
    else if b0 < 0xC2 then (runeError, 1)
    else if b0 < 0xE0 then
      match rest with
      | b1 :: _ =>
        if isCont b1 then ((b0 - 0xC0) * 64 + (b1 - 0x80), 2) else (runeError, 1)
      | [] => (runeError, 1)
    else if b0 < 0xF0 then
      match rest with
      | b1 :: b2 :: _ =>
        if accept3 b0 b1 ∧ isCont b2 then
          ((b0 - 0xE0) * 4096 + (b1 - 0x80) * 64 + (b2 - 0x80), 3)
        else (runeError, 1)
      | _ => (runeError, 1)
    else if b0 < 0xF5 then
      match rest with
      | b1 :: b2 :: b3 :: _ =>
        if accept4 b0 b1 ∧ isCont b2 ∧ isCont b3 then
          ((b0 - 0xF0) * 262144 + (b1 - 0x80) * 4096 + (b2 - 0x80) * 64 + (b3 - 0x80), 4)
        else (runeError, 1)
      | _ => (runeError, 1)
    else (runeError, 1)

/-- The backward scan of `utf8.DecodeLastRune` over the reversed tail:
the offset (counting back from the second-to-last byte) of the nearest
non-continuation byte inside the window of at most `UTFMax` bytes the Go
loop examines. -/
def scanBack : List Nat → Nat → Option Nat
  | _, 0 => none
  | [], _ + 1 => none
  | b :: bs, w + 1 =>
    if isCont b then (scanBack bs w).map (· + 1) else some 0

/-- The body of `utf8.DecodeLastRune` once the reversed input is in
view: `n` is the input's length, `p` the input itself, `q` its reverse.
`s` is the length of the suffix handed to `DecodeRune` (when no start
byte lies in the window Go's loop runs past it, yielding a 5-byte
suffix, clamped at the front of the slice). -/
def decodeLastRuneAux (n : Nat) (p q : List Nat) : Nat × Nat :=
  match q with
  | [] => (runeError, 0)
  | b :: tail =>
    if b < 0x80 then (b, 1)
    else
      let s := ((scanBack tail (min (n - 1) 3)).map (· + 2)).getD
        (if 5 ≤ n then 5 else n)
      let r := decodeRune (p.drop (n - s))
      if r.2 = s then r else (runeError, 1)

/-- `utf8.DecodeLastRune`: the rune ending at the end of `p` and its
width in bytes. -/
def decodeLastRune (p : List Nat) : Nat × Nat :=
  decodeLastRuneAux p.length p p.reverse

/-- `runewidth.RuneWidth`, modelled from the external go-runewidth
dependency restricted to what matters here: width 0 for control
characters, width 2 for the principal East-Asian wide ranges, width 1
otherwise. -/
def runeWidth (r : Nat) : Nat :=
  if r < 0x20 then 0
  else if (0x1100 ≤ r ∧ r ≤ 0x115F) ∨ (0x2E80 ≤ r ∧ r ≤ 0x9FFF)
      ∨ (0xAC00 ≤ r ∧ r ≤ 0xD7A3) ∨ (0xF900 ≤ r ∧ r ≤ 0xFAFF)
      ∨ (0xFF00 ≤ r ∧ r ≤ 0xFF60) ∨ (0x20000 ≤ r ∧ r ≤ 0x2FFFD) then 2
  else 1

/-- `EditBox` from lolcat.go.  Go's `int` offsets are `Nat` here: in
every state reachable from the empty box they are non-negative, and all
of the source's subtractions are guarded. -/
structure EditBox where
  text : List Nat
  visualOffset : Int
  cursorOffsetBytes : Nat
  cursorOffsetCells : Nat
  cursorOffsetRunes : Nat
deriving Repr, DecidableEq

/-- The zero `EditBox` the program starts with. -/
def emptyEditBox : EditBox :=
  ⟨[], 0, 0, 0, 0⟩

/-- The scan loop of `adjustOffset`, accumulating display cells and rune
count over a byte prefix.  The Go loop terminates because `DecodeRune`
consumes at least one byte per iteration; the fuel argument (always the
length of the remaining text) makes that measure explicit. -/
def adjustOffsetLoop : Nat → List Nat → Nat × Nat
  | 0, _ => (0, 0)
  | _, [] => (0, 0)
  | fuel + 1, b :: bs =>
    let r := decodeRune (b :: bs)
    let rest := adjustOffsetLoop fuel ((b :: bs).drop r.2)
    (rest.1 + runeWidth r.1, rest.2 + 1)

/-- `adjustOffset` from lolcat.go: rescan `text[:offsetBytes]` from the
start, returning `(offsetCells, offsetRunes)`. -/
def adjustOffset (text : List Nat) (offsetBytes : Nat) : Nat × Nat :=
  adjustOffsetLoop (text.take offsetBytes).length (text.take offsetBytes)

/-- `EditBox.MoveCursorTo` — including the source's defect: Go's
`eb.cursorOffsetCells, eb.cursorOffsetCells = adjustOffset(eb.text, offsetBytes)`
assigns BOTH results to `cursorOffsetCells` (left to right, so the field
ends up holding the second result, the rune count) and `cursorOffsetRunes`
is never written anywhere. -/
def EditBox.MoveCursorTo (eb : EditBox) (offsetBytes : Nat) : EditBox :=
  { eb with cursorOffsetBytes := offsetBytes
            cursorOffsetCells := (adjustOffset eb.text offsetBytes).2 }

/-- `EditBox.RuneUnderCursor`. -/
def EditBox.RuneUnderCursor (eb : EditBox) : Nat × Nat :=
  decodeRune (eb.text.drop eb.cursorOffsetBytes)

/-- `EditBox.RuneBeforeCursor`. -/
def EditBox.RuneBeforeCursor (eb : EditBox) : Nat × Nat :=
  decodeLastRune (eb.text.take eb.cursorOffsetBytes)

/-- `EditBox.MoveCursorOneRuneBackward`. -/
def EditBox.MoveCursorOneRuneBackward (eb : EditBox) : EditBox :=
  if eb.cursorOffsetBytes = 0 then eb
  else eb.MoveCursorTo (eb.cursorOffsetBytes - eb.RuneBeforeCursor.2)

/-- `EditBox.MoveCursorOneRuneForward`. -/
def EditBox.MoveCursorOneRuneForward (eb : EditBox) : EditBox :=
  if eb.cursorOffsetBytes = eb.text.length then eb
  else eb.MoveCursorTo (eb.cursorOffsetBytes + eb.RuneUnderCursor.2)

/-- `EditBox.MoveCursorToBeginningOfTheLine`. -/
def EditBox.MoveCursorToBeginningOfTheLine (eb : EditBox) : EditBox :=
  eb.MoveCursorTo 0

/-- `EditBox.MoveCursorToEndOfTheLine`. -/
def EditBox.MoveCursorToEndOfTheLine (eb : EditBox) : EditBox :=
  eb.MoveCursorTo eb.text.length

/-- `byteSliceRemove` from lolcat.go: delete `text[fro:upto]`. -/
def byteSliceRemove (text : List Nat) (fro upto : Nat) : List Nat :=
  text.take fro ++ text.drop upto

/-- `byteSliceInsert` from lolcat.go: splice `what` in at `offset`. -/
def byteSliceInsert (text : List Nat) (offset : Nat) (what : List Nat) : List Nat :=
  text.take offset ++ what ++ text.drop offset

/-- `EditBox.DeleteRuneBackward`. -/
def EditBox.DeleteRuneBackward (eb : EditBox) : EditBox :=
  if eb.cursorOffsetBytes = 0 then eb
  else
    let eb1 := eb.MoveCursorOneRuneBackward
    let size := eb1.RuneUnderCursor.2
    { eb1 with text := byteSliceRemove eb1.text eb1.cursorOffsetBytes (eb1.cursorOffsetBytes + size) }

/-- `EditBox.DeleteRuneForward`. -/
def EditBox.DeleteRuneForward (eb : EditBox) : EditBox :=
  if eb.cursorOffsetBytes = eb.text.length then eb
  else
    let size := eb.RuneUnderCursor.2
    { eb with text := byteSliceRemove eb.text eb.cursorOffsetBytes (eb.cursorOffsetBytes + size) }

/-- `EditBox.DeleteTheRestOfTheLine`. -/
def EditBox.DeleteTheRestOfTheLine (eb : EditBox) : EditBox :=
  { eb with text := eb.text.take eb.cursorOffsetBytes }

/-- `EditBox.InsertRune`: encode the rune, splice it in at the cursor,
step the cursor over it. -/
def EditBox.InsertRune (eb : EditBox) (c : Char) : EditBox :=
  let eb1 := { eb with
    text := byteSliceInsert eb.text eb.cursorOffsetBytes (utf8EncodeChar c) }
  eb1.MoveCursorOneRuneForward

/-- Insert the code points of a string one at a time. -/
def insertString (eb : EditBox) (cs : List Char) : EditBox :=
  cs.foldl EditBox.InsertRune eb

/-- Press backspace `n` times. -/
def deleteN (eb : EditBox) : Nat → EditBox
  | 0 => eb
  | n + 1 => deleteN eb.DeleteRuneBackward n

/-- The UTF-8 encoding of a whole string. -/
def encodeList : List Char → List Nat
  | [] => []
  | c :: cs => utf8EncodeChar c ++ encodeList cs

/-! ### Characterization of a buffer built by a sequence of appends -/

theorem succ_mod_aux (c N : Nat) (hc : 0 < c) :
    (N + 1) % c = if N % c + 1 = c then 0 else N % c + 1 := by
  have h1 : N + 1 = c * (N / c) + (N % c + 1) := by
    have := Nat.div_add_mod N c; omega
  rw [h1, Nat.mul_add_mod]
  have h2 : N % c < c := Nat.mod_lt _ hc
  rcases eq_or_ne (N % c + 1) c with h | h
  · rw [if_pos h, h, Nat.mod_self]
  · rw [if_neg h, Nat.mod_eq_of_lt (by omega)]

/-- After appending `xs` to an empty buffer of capacity `c`: the capacity
is unchanged, `lineNo` counts the appends, `nextLineIndex` wraps modulo
`c`, and each line still retained (the most recent `min` of length and
`c`) sits in slot `k % c`, where `k` is its 0-based append position. -/
theorem buildBuffer_spec (c : Nat) (hc : 0 < c) (xs : List String) :
    (buildBuffer c xs).lines.length = c ∧
    (buildBuffer c xs).lineNo = (xs.length : Int) ∧
    (buildBuffer c xs).nextLineIndex = ((xs.length % c : Nat) : Int) ∧
    ∀ k : Nat, k < xs.length → xs.length - k ≤ c →
      (buildBuffer c xs).lines.getD (k % c) "" = xs.getD k "" := by
  induction xs using List.reverseRecOn with
  | nil =>
    refine ⟨by simp [buildBuffer, emptyBuffer], by simp [buildBuffer, emptyBuffer],
      by simp [buildBuffer, emptyBuffer], ?_⟩
    intro k hk
    simp at hk
  | append_singleton xs x ih =>
    obtain ⟨hlen, hno, hnext, hslot⟩ := ih
    have hstep : buildBuffer c (xs ++ [x]) = (buildBuffer c xs).appendLine x := by
      simp [buildBuffer, List.foldl_append]
    have hr : xs.length % c < c := Nat.mod_lt _ hc
    refine ⟨?_, ?_, ?_, ?_⟩
    · simp [hstep, LogBuffer.appendLine, hlen]
    · simp [hstep, LogBuffer.appendLine, hno]
    · simp only [hstep, LogBuffer.appendLine, hlen, hnext, List.length_append,
        List.length_singleton]
      rw [succ_mod_aux c xs.length hc]
      rcases eq_or_ne (xs.length % c + 1) c with h | h
      · rw [if_pos h, if_pos (by omega)]
        simp
      · rw [if_neg h, if_neg (by omega)]
        push_cast
        ring
    · intro k hk hd
      simp only [List.length_append, List.length_singleton] at hk hd
      simp only [hstep, LogBuffer.appendLine, hnext, Int.toNat_natCast]
      rw [List.getD_eq_getElem?_getD, List.getElem?_set]
      rcases eq_or_ne k xs.length with hke | hke
      · subst hke
        rw [if_pos rfl, if_pos (by rw [hlen]; exact Nat.mod_lt _ hc)]
        rw [List.getD_eq_getElem?_getD, List.getElem?_concat_length]
      · have hklt : k < xs.length := by omega
        have hne : xs.length % c ≠ k % c := by
          intro he
          have hmod : k ≡ xs.length [MOD c] := by
            unfold Nat.ModEq
            omega
          have hdvd : c ∣ xs.length - k := (Nat.modEq_iff_dvd' (by omega)).mp hmod
          have := Nat.le_of_dvd (by omega) hdvd
          omega
        rw [if_neg hne, ← List.getD_eq_getElem?_getD]
        rw [hslot k hklt (by omega)]
        rw [List.getD_eq_getElem?_getD, List.getD_eq_getElem?_getD,
          List.getElem?_append_left hklt]

/-- For a line number still retained (0-based position `k`, within the
last `c` appends), `LineNoToIndex` resolves to the in-range slot `k % c`. -/
theorem lineNoToIndex_recent (c : Nat) (hc : 0 < c) (xs : List String)
    (k : Nat) (hk : k < xs.length) (hd : xs.length - k ≤ c) :
    (buildBuffer c xs).LineNoToIndex ((k : Int) + 1) = ((k % c : Nat) : Int) := by
  obtain ⟨hlen, hno, hnext, -⟩ := buildBuffer_spec c hc xs
  have hr : xs.length % c < c := Nat.mod_lt _ hc
  have hm := Nat.div_add_mod xs.length c
  have hcast : ((k % c : Nat) : Int) = (k : Int) % (c : Int) := by push_cast; ring
  generalize hq : xs.length / c = q at hm
  generalize hrr : xs.length % c = r at hm hr hnext
  have hmz : ((xs.length : Nat) : Int) = (c : Int) * (q : Int) + (r : Int) := by
    exact_mod_cast hm.symm
  simp only [LogBuffer.LineNoToIndex, hlen, hno, hnext]
  set A : Int := (r : Int) - ((xs.length : Int) - ((k : Int) + 1)) - 1 with hA
  have hkA : (k : Int) = A + (c : Int) * (q : Int) := by
    rw [hA, hmz]; ring
  have hAlt : A < (c : Int) := by rw [hA]; omega
  rcases lt_or_le A 0 with hneg | hpos
  · rw [if_pos hneg]
    have h0 : 0 ≤ A + (c : Int) := by rw [hA]; omega
    have hlt : A + (c : Int) < (c : Int) := by omega
    rw [if_neg (by omega)]
    rw [hcast]
    have hkA2 : (k : Int) = (A + (c : Int)) + (c : Int) * ((q : Int) - 1) := by
      rw [hkA]; ring
    conv_rhs => rw [hkA2, Int.add_mul_emod_self_left]
    rw [Int.emod_eq_of_lt h0 hlt]
  · rw [if_neg (by omega)]
    rw [if_neg (by omega)]
    rw [hcast]
    conv_rhs => rw [hkA, Int.add_mul_emod_self_left]
    rw [Int.emod_eq_of_lt hpos hAlt]

/-! ### C1: append monotonicity -/

/-- C1: Append monotonicity — after any sequence of `N` appends to an
empty buffer of positive capacity `c`, `GetLastLineNo` returns `N`, and
every line number `n` among the most recent `min N c` resolves through
`LineNoToIndex` to an in-range slot that holds exactly the text appended
as line `n`. -/
theorem c1_append_monotonicity (c : Nat) (xs : List String) (hc : 0 < c) :
    (buildBuffer c xs).GetLastLineNo = (xs.length : Int) ∧
    ∀ n : Int, 1 ≤ n → n ≤ (xs.length : Int) → (xs.length : Int) - n < (c : Int) →
      0 ≤ (buildBuffer c xs).LineNoToIndex n ∧
      (buildBuffer c xs).LineNoToIndex n < ((buildBuffer c xs).lines.length : Int) ∧
      (buildBuffer c xs).lines.getD ((buildBuffer c xs).LineNoToIndex n).toNat ""
        = xs.getD (n - 1).toNat "" := by
  obtain ⟨hlen, hno, hnext, hslot⟩ := buildBuffer_spec c hc xs
  refine ⟨hno, ?_⟩
  intro n h1 h2 h3
  set k : Nat := (n - 1).toNat with hk
  have hn : n = (k : Int) + 1 := by omega
  have hklt : k < xs.length := by omega
  have hkd : xs.length - k ≤ c := by omega
  have hidx := lineNoToIndex_recent c hc xs k hklt hkd
  rw [hn, hidx]
  have hkc : k % c < c := Nat.mod_lt _ hc
  refine ⟨Int.natCast_nonneg _, by rw [hlen]; exact_mod_cast hkc, ?_⟩
  rw [Int.toNat_natCast]
  exact hslot k hklt hkd

/-- Witness for C1: capacity 2, appends ["a","b","c"], line number 3. -/
theorem c1_append_monotonicity_witness :
    (buildBuffer 2 ["a", "b", "c"]).GetLastLineNo = 3 ∧
    0 ≤ (buildBuffer 2 ["a", "b", "c"]).LineNoToIndex 3 ∧
    (buildBuffer 2 ["a", "b", "c"]).lines.getD
      ((buildBuffer 2 ["a", "b", "c"]).LineNoToIndex 3).toNat "" = "c" := by
  obtain ⟨h1, h2⟩ := c1_append_monotonicity 2 ["a", "b", "c"] (by decide)
  obtain ⟨ha, -, hb⟩ := h2 3 (by decide) (by decide) (by decide)
  exact ⟨h1.trans (by decide), ha, hb.trans (by decide)⟩

/-! ### C2: eviction behaviour of `LineNoToIndex` -/

/-- C2 (the code defect, evaluated): with capacity 5 after appending
"a".."f", line 1 is evicted (`6 - 1 >= 5`), yet `LineNoToIndex 1` returns
slot 0 — an in-range index, not the distinguished `-1` — and that slot
holds "f", the text of line 6 (stale text for an evicted number).
Likewise `LineNoToIndex 0` on an empty buffer of capacity 5 returns slot
4 even though the claim requires `-1` for every `n <= 0`. -/
theorem c2_eviction_bug :
    (buildBuffer 5 ["a", "b", "c", "d", "e", "f"]).LineNoToIndex 1 = 0 ∧
    (buildBuffer 5 ["a", "b", "c", "d", "e", "f"]).lines.getD 0 "" = "f" ∧
    (emptyBuffer 5).LineNoToIndex 0 = 4 := by
  exact ⟨by decide, by decide, by decide⟩

/-! ### C3: invalid filter expressions -/

/-- The `UpdateFilter` rebuild loop with a nil filter keeps every
positive line number of the window it scans (the nil test short-circuits
before any slot is read, so it never faults). -/
theorem scanWindow_none (lb : LogBuffer) (l : List Int) :
    scanWindow lb none l = some (l.filter (fun n => decide (0 < n))) := by
  induction l with
  | nil => rfl
  | cons a l ih =>
    simp only [scanWindow, List.filter_cons]
    by_cases h : a ≤ 0
    · rw [if_pos h, ih]
      simp [show ¬(0 < a) by omega]
    · rw [if_neg h, ih]
      simp [show 0 < a by omega]

/-- C3 counterexample: a buffer of capacity 3 holding one line "x", and a
filter expression "(" whose compilation fails (modelled `none`).
`UpdateFilter` rebuilds the match set as `[1]` — every retained line —
not as the empty set the claim asserts (the display name is the error
marker, as claimed). -/
theorem c3_counterexample :
    (updateFilter (buildBuffer 3 ["x"]) none "(" ⟨"", none, []⟩).map LogView.index
      = some [1] ∧
    (updateFilter (buildBuffer 3 ["x"]) none "(" ⟨"", none, []⟩).map LogView.index
      ≠ some [] ∧
    (updateFilter (buildBuffer 3 ["x"]) none "(" ⟨"", none, []⟩).map LogView.Name
      = some "#ERR#" := by
  exact ⟨by decide, by decide, by decide⟩

/-- C3 (amended): on a compile failure `UpdateFilter` marks the view
invalid (`filter := none`), sets the display name to the invalid-marker
"#ERR#", and always returns normally — the failure is recovered locally
and never propagated — but it rebuilds the matched set as ALL positive
line numbers of the scan window (a nil filter matches every line), not as
the empty set. -/
theorem c3_invalid_filter_amended (lb : LogBuffer) (str : String) (lv : LogView) :
    updateFilter lb none str lv
      = some { lv with Name := "#ERR#", filter := none,
                       index := (windowNos lb).filter (fun n => decide (0 < n)) } := by
  simp [updateFilter, scanWindow_none]

/-! ### C4: `LogBuffer.GetLines` -/

/-- The fill loop of `GetLines` copies out exactly the longest prefix of
its walk that resolves. -/
theorem getLinesLoop_eq (lb : LogBuffer) (l : List Int) :
    getLinesLoop lb l
      = (l.takeWhile (fun n => decide (0 ≤ lb.LineNoToIndex n))).map
          (fun n => lb.lines.getD (lb.LineNoToIndex n).toNat "") := by
  induction l with
  | nil => rfl
  | cons a l ih =>
    simp only [getLinesLoop, List.takeWhile_cons]
    by_cases h : lb.LineNoToIndex a < 0
    · rw [if_pos h]
      simp [show ¬(0 ≤ lb.LineNoToIndex a) by omega]
    · rw [if_neg h]
      simp [show (0 ≤ lb.LineNoToIndex a) by omega, ih]

theorem length_takeWhile_le' {α : Type} (p : α → Bool) (l : List α) :
    (l.takeWhile p).length ≤ l.length := by
  induction l with
  | nil => simp
  | cons a l ih =>
    rw [List.takeWhile_cons]
    split
    · simpa using ih
    · simp

theorem descRange_length (upto f : Int) :
    (descRange upto f).length = (upto - f).toNat := by
  unfold descRange
  rw [List.length_map, List.length_range]

/-- C4 counterexample: capacity 5, appends "a".."f".  `GetLines 3 6`
returns `["f","e","d"]` — newest first, not the `["d","e","f"]` the claim
asserts — and `GetLines 0 6` returns six entries whose last is the stale
text "f" standing for the evicted line 1, neither strictly shorter nor
free of entries for evicted line numbers. -/
theorem c4_counterexample :
    (buildBuffer 5 ["a", "b", "c", "d", "e", "f"]).GetLines 3 6
      = some ["f", "e", "d"] ∧
    (["f", "e", "d"] : List String) ≠ ["d", "e", "f"] ∧
    (buildBuffer 5 ["a", "b", "c", "d", "e", "f"]).GetLines 0 6
      = some ["f", "e", "d", "c", "b", "f"] := by
  exact ⟨by decide, by decide, by decide⟩

/-- C4 (amended): whenever `max fro 0 ≤ upto`, `GetLines fro upto`
returns normally with exactly `upto - max fro 0` entries, ordered newest
(line `upto`) FIRST; it copies out the walk's longest resolvable prefix
and leaves the remaining (older) positions as `""`; the only clamping is
of a negative `fro` to 0.  (Because `LineNoToIndex` mis-reports some
evicted numbers as resolvable — see the C2 defect — the copied prefix can
contain stale text for evicted line numbers.) -/
theorem c4_range_amended (lb : LogBuffer) (fro upto : Int)
    (h : max fro 0 ≤ upto) :
    lb.GetLines fro upto = some (rangeModel lb fro upto) ∧
    (rangeModel lb fro upto).length = (upto - max fro 0).toNat ∧
    lb.GetLines fro upto = lb.GetLines (max fro 0) upto := by
  have hclamp : (if fro < 0 then (0 : Int) else fro) = max fro 0 := by
    split <;> omega
  have hclamp2 : (if max fro 0 < 0 then (0 : Int) else max fro 0) = max fro 0 := by
    split <;> omega
  have hlenpre : ((descRange upto (max fro 0)).takeWhile
      (fun n => decide (0 ≤ lb.LineNoToIndex n))).length ≤ (upto - max fro 0).toNat := by
    calc ((descRange upto (max fro 0)).takeWhile _).length
        ≤ (descRange upto (max fro 0)).length := length_takeWhile_le' _ _
      _ = (upto - max fro 0).toNat := descRange_length _ _
  refine ⟨?_, ?_, ?_⟩
  · simp only [LogBuffer.GetLines, hclamp, rangeModel]
    rcases eq_or_ne (max fro 0) upto with he | hne
    · rw [if_pos he]
      have h0 : (upto - max fro 0).toNat = 0 := by omega
      simp [descRange, h0]
    · rw [if_neg hne, if_neg (by omega)]
      rw [getLinesLoop_eq]
      simp
  · simp only [rangeModel]
    simp only [List.length_append, List.length_map, List.length_replicate]
    omega
  · simp only [LogBuffer.GetLines, hclamp, hclamp2]

/-- Witness for C4 (amended) at capacity 5, appends "a".."f",
`GetLines 3 6`. -/
theorem c4_range_amended_witness :
    (buildBuffer 5 ["a", "b", "c", "d", "e", "f"]).GetLines 3 6
      = some (rangeModel (buildBuffer 5 ["a", "b", "c", "d", "e", "f"]) 3 6) ∧
    (rangeModel (buildBuffer 5 ["a", "b", "c", "d", "e", "f"]) 3 6).length = 3 := by
  obtain ⟨h1, h2, -⟩ :=
    c4_range_amended (buildBuffer 5 ["a", "b", "c", "d", "e", "f"]) 3 6 (by decide)
  exact ⟨h1, h2.trans (by decide)⟩

/-! ### C6: view snapshot isolation -/

/-- One ingestion step never touches the device's view list. -/
theorem ingestStep_logViews (s : Ingest) (t : Int) (line : String) :
    (ingestStep s t line).1.dev.logViews = s.dev.logViews := by
  by_cases h : s.dev.waiting <;> simp [ingestStep, Device.appendLine, h]

/-- Any number of ingestion steps never touches the device's view list. -/
theorem ingestRun_logViews (s : Ingest) (evs : List (Int × String)) :
    (ingestRun s evs).1.dev.logViews = s.dev.logViews := by
  induction evs generalizing s with
  | nil => rfl
  | cons e evs ih =>
    obtain ⟨t, line⟩ := e
    simp only [ingestRun]
    rw [ih, ingestStep_logViews]

/-- C6: View snapshot isolation — recompute view `i` over the current
buffer with `UpdateFilter` (producing `lv'`), store it, then run the
ingestion loop over any trace of appends: view `i` still has exactly the
matched set and display name `UpdateFilter` produced.  Appended lines are
never retroactively included until the next recomputation. -/
theorem c6_snapshot_isolation (s : Ingest) (i : Nat)
    (compiled : Option (String → Bool)) (str : String) (lv' : LogView)
    (hi : i < s.dev.logViews.length)
    (_hupd : updateFilter s.dev.logBuffer compiled str
      (s.dev.logViews.getD i ⟨"", none, []⟩) = some lv')
    (evs : List (Int × String)) :
    ((ingestRun { s with dev := { s.dev with
        logViews := s.dev.logViews.set i lv' } } evs).1.dev.logViews.getD i
        ⟨"", none, []⟩).index = lv'.index ∧
    ((ingestRun { s with dev := { s.dev with
        logViews := s.dev.logViews.set i lv' } } evs).1.dev.logViews.getD i
        ⟨"", none, []⟩).Name = lv'.Name := by
  rw [ingestRun_logViews]
  have : (s.dev.logViews.set i lv').getD i ⟨"", none, []⟩ = lv' := by
    rw [List.getD_eq_getElem?_getD, List.getElem?_set]
    simp [hi]
  rw [this]
  exact ⟨rfl, rfl⟩

/-- Witness for C6: one view, buffer of capacity 2 holding "x", a failed
compile recomputation, then two appends. -/
theorem c6_snapshot_isolation_witness :
    ((ingestRun ⟨⟨buildBuffer 2 ["x"],
        ([⟨"v", none, []⟩] : List LogView).set 0 ⟨"#ERR#", none, [1]⟩, false⟩, 0⟩
        [(1, "y"), (2, "z")]).1.dev.logViews.getD 0 ⟨"", none, []⟩).index = [1] ∧
    ((ingestRun ⟨⟨buildBuffer 2 ["x"],
        ([⟨"v", none, []⟩] : List LogView).set 0 ⟨"#ERR#", none, [1]⟩, false⟩, 0⟩
        [(1, "y"), (2, "z")]).1.dev.logViews.getD 0 ⟨"", none, []⟩).Name = "#ERR#" := by
  have h := c6_snapshot_isolation
    ⟨⟨buildBuffer 2 ["x"], [⟨"v", none, []⟩], false⟩, 0⟩ 0 none "("
    ⟨"#ERR#", none, [1]⟩ (by decide) (by rfl) [(1, "y"), (2, "z")]
  exact h

/-! ### C7: the debounce state machine -/

/-- A quiet run: starting not yet armed, a trace whose inter-arrival gaps
never exceed the threshold leaves the source unarmed and emits no ping. -/
theorem ingest_quiet_run (d0 : Device) (t0 : Int) (evs : List (Int × String))
    (hw : d0.waiting = false) (hsub : subThreshold t0 evs = true) :
    (ingestRun ⟨d0, t0⟩ evs).2 = List.replicate evs.length false ∧
    (ingestRun ⟨d0, t0⟩ evs).1.dev.waiting = false := by
  induction evs generalizing d0 t0 with
  | nil => exact ⟨rfl, hw⟩
  | cons e evs ih =>
    obtain ⟨t, line⟩ := e
    simp only [subThreshold, Bool.and_eq_true, decide_eq_true_eq] at hsub
    obtain ⟨hle, hsub'⟩ := hsub
    have hstep : ingestStep ⟨d0, t0⟩ t line
        = (⟨⟨(d0.logBuffer.appendLine line), d0.logViews, false⟩, t⟩, false) := by
      simp [ingestStep, Device.appendLine, hw, LogBuffer.appendLine]
      omega
    have hrec := ih ⟨(d0.logBuffer.appendLine line), d0.logViews, false⟩ t rfl hsub'
    simp only [ingestRun, hstep, List.length_cons, List.replicate_succ]
    exact ⟨by rw [hrec.1], hrec.2⟩

/-- C7: the debounce state machine of `Device.Open`'s scanner loop.
(1) A source starts Quiet; (2) from Quiet, a step arms the source exactly
when the gap since the previous received line exceeds the 500 ms
threshold; (3) a step that leaves the source Quiet emits no ping; (4) a
step that ends Armed emits a ping (in particular the arming line itself
pings, having been appended after the transition); (5) a burst whose gaps
never exceed the threshold, started from the initial Quiet state, emits
no ping at all. -/
theorem c7_debounce :
    (∀ c : Nat, (newDevice c).waiting = false) ∧
    (∀ (s : Ingest) (t : Int) (line : String), s.dev.waiting = false →
      ((ingestStep s t line).1.dev.waiting = true ↔ 500000000 < t - s.lastTime)) ∧
    (∀ (s : Ingest) (t : Int) (line : String),
      (ingestStep s t line).1.dev.waiting = false → (ingestStep s t line).2 = false) ∧
    (∀ (s : Ingest) (t : Int) (line : String),
      (ingestStep s t line).1.dev.waiting = true → (ingestStep s t line).2 = true) ∧
    (∀ (d0 : Device) (t0 : Int) (evs : List (Int × String)),
      d0.waiting = false → subThreshold t0 evs = true →
      (ingestRun ⟨d0, t0⟩ evs).2 = List.replicate evs.length false) := by
  refine ⟨fun c => rfl, ?_, ?_, ?_, ?_⟩
  · intro s t line hw
    simp [ingestStep, Device.appendLine, hw]
  · intro s t line
    by_cases h : s.dev.waiting <;> simp [ingestStep, Device.appendLine, h]
  · intro s t line
    by_cases h : s.dev.waiting <;> simp [ingestStep, Device.appendLine, h]
  · intro d0 t0 evs hw hsub
    exact (ingest_quiet_run d0 t0 evs hw hsub).1

/-- Witness for C7: a gap of 600000001 ns arms an initial source, and a
two-line burst with 1 ns gaps emits no ping. -/
theorem c7_debounce_witness :
    ((ingestStep ⟨⟨emptyBuffer 1, [], false⟩, 0⟩ 600000001 "a").1.dev.waiting = true
      ↔ (500000000 : Int) < 600000001 - 0) ∧
    (ingestRun ⟨⟨emptyBuffer 1, [], false⟩, 0⟩ [(1, "a"), (2, "b")]).2
      = List.replicate 2 false := by
  constructor
  · exact c7_debounce.2.1 ⟨⟨emptyBuffer 1, [], false⟩, 0⟩ 600000001 "a" rfl
  · exact c7_debounce.2.2.2.2 ⟨emptyBuffer 1, [], false⟩ 0 [(1, "a"), (2, "b")] rfl
      (by decide)

/-! ### C10: Armed is absorbing -/

/-- C10: `waiting` is never reset — `appendLine` only reads it, and an
ingestion step keeps an armed source armed; consequently, from any armed
state every subsequent append sends exactly one ping. -/
theorem c10_armed_absorbing :
    (∀ (d : Device) (line : String), (d.appendLine line).1.waiting = d.waiting) ∧
    (∀ (s : Ingest) (t : Int) (line : String), s.dev.waiting = true →
      (ingestStep s t line).1.dev.waiting = true ∧ (ingestStep s t line).2 = true) ∧
    (∀ (s : Ingest) (evs : List (Int × String)), s.dev.waiting = true →
      (ingestRun s evs).1.dev.waiting = true ∧
      (ingestRun s evs).2 = List.replicate evs.length true) := by
  have hstep : ∀ (s : Ingest) (t : Int) (line : String), s.dev.waiting = true →
      (ingestStep s t line).1.dev.waiting = true ∧ (ingestStep s t line).2 = true := by
    intro s t line hw
    constructor <;> simp [ingestStep, Device.appendLine, hw]
  refine ⟨fun d line => rfl, hstep, ?_⟩
  intro s evs hw
  induction evs generalizing s with
  | nil => exact ⟨hw, rfl⟩
  | cons e evs ih =>
    obtain ⟨t, line⟩ := e
    obtain ⟨hw', hping⟩ := hstep s t line hw
    obtain ⟨h1, h2⟩ := ih (ingestStep s t line).1 hw'
    simp only [ingestRun]
    exact ⟨h1, by rw [h2, hping]; rfl⟩

/-- Witness for C10: an armed device stays armed and pings on each of two
appends. -/
theorem c10_armed_absorbing_witness :
    (ingestRun ⟨⟨emptyBuffer 1, [], true⟩, 0⟩ [(1, "a"), (2, "b")]).1.dev.waiting = true ∧
    (ingestRun ⟨⟨emptyBuffer 1, [], true⟩, 0⟩ [(1, "a"), (2, "b")]).2
      = List.replicate 2 true := by
  exact c10_armed_absorbing.2.2 ⟨⟨emptyBuffer 1, [], true⟩, 0⟩ [(1, "a"), (2, "b")] rfl

/-! ### C9: `LogView.GetLines` (the filtered tail) -/

/-- For line numbers at or below the high-water mark, `LineNoToIndex`
reports `-1` exactly when the number is far enough behind it (how far is
skewed by `nextLineIndex` — the C2 defect); in particular resolvability
is monotone in the line number. -/
theorem lineNoToIndex_neg_iff (lb : LogBuffer) (x : Int)
    (hwf : lb.nextLineIndex ≤ (lb.lines.length : Int)) (hx : x ≤ lb.lineNo) :
    lb.LineNoToIndex x < 0
      ↔ lb.nextLineIndex - (lb.lineNo - x) - 1 < -(lb.lines.length : Int) := by
  simp only [LogBuffer.LineNoToIndex]
  split_ifs <;> omega

/-- Full characterisation of the fill loop of `LogView.GetLines` over a
descending list of matched line numbers, all at or below the high-water
mark: the newest qualifying entries (as many as fit in positions
`0..ri`) are written backwards from position `ri`, and every other slot
of `res` is untouched. -/
theorem viewLoop_spec (lb : LogBuffer) (bottom : Int)
    (hwf : lb.nextLineIndex ≤ (lb.lines.length : Int)) :
    ∀ (l : List Int) (ri : Int) (res : List String),
      l.Pairwise (fun a b => b ≤ a) → (∀ n ∈ l, n ≤ lb.lineNo) →
      0 ≤ ri → ri < (res.length : Int) →
      viewLoop lb bottom l ri res
        = some (res.take (ri.toNat + 1
              - min (ri.toNat + 1) (l.filter (qualifies lb bottom)).length)
            ++ ((l.filter (qualifies lb bottom)).take
                (min (ri.toNat + 1) (l.filter (qualifies lb bottom)).length)).reverse.map
                (slotText lb)
            ++ res.drop (ri.toNat + 1)) := by
  intro l
  induction l with
  | nil =>
    intro ri res _ _ h0 hlt
    simp [viewLoop, List.take_append_drop]
  | cons n rest ih =>
    intro ri res hsort hmem h0 hlt
    rw [List.pairwise_cons] at hsort
    obtain ⟨hle_rest, hsort'⟩ := hsort
    have hmem_n : n ≤ lb.lineNo := hmem n (List.mem_cons_self _ _)
    have hmem' : ∀ m ∈ rest, m ≤ lb.lineNo := fun m hm => hmem m (List.mem_cons_of_mem _ hm)
    by_cases hskip : bottom < n
    · have hq : qualifies lb bottom n = false := by
        simp only [qualifies, decide_eq_false_iff_not]
        omega
      simp only [viewLoop, if_pos hskip, List.filter_cons, hq]
      simp only [Bool.false_eq_true, if_false]
      exact ih ri res hsort' hmem' h0 hlt
    · have hnb : n ≤ bottom := by omega
      by_cases hres : lb.LineNoToIndex n < 0
      · have hq : qualifies lb bottom n = false := by
          simp only [qualifies, decide_eq_false_iff_not]
          omega
        have hfr : rest.filter (qualifies lb bottom) = [] := by
          rw [List.filter_eq_nil_iff]
          intro m hm
          have hmono : lb.LineNoToIndex m < 0 := by
            rw [lineNoToIndex_neg_iff lb m hwf (hmem' m hm)]
            rw [lineNoToIndex_neg_iff lb n hwf hmem_n] at hres
            have := hle_rest m hm
            omega
          simp only [qualifies, decide_eq_true_eq]
          omega
        simp only [viewLoop, if_neg hskip, if_pos hres, List.filter_cons, hq,
          Bool.false_eq_true, if_false, hfr]
        simp [List.take_append_drop]
      · have hq : qualifies lb bottom n = true := by
          simp only [qualifies, decide_eq_true_eq]
          omega
        have hrn : ri.toNat < res.length := by omega
        have hst : lb.lines.getD (lb.LineNoToIndex n).toNat "" = slotText lb n := rfl
        have hfc : (n :: rest).filter (qualifies lb bottom)
            = n :: rest.filter (qualifies lb bottom) := by
          rw [List.filter_cons, if_pos hq]
        have hset : res.set ri.toNat (slotText lb n)
            = res.take ri.toNat ++ slotText lb n :: res.drop (ri.toNat + 1) := by
          rw [List.set_eq_take_append_cons_drop, if_pos hrn]
        by_cases hri : ri - 1 < 0
        · have hri0 : ri = 0 := by omega
          subst hri0
          simp only [viewLoop, if_neg hskip, if_neg hres, if_neg (by omega : ¬(0 : Int) < 0),
            if_pos (by omega : (0 : Int) - 1 < 0), hfc, hst]
          rw [show ((0 : Int).toNat + 1) = 1 by omega]
          have hm1 : min 1 ((n :: rest.filter (qualifies lb bottom)).length) = 1 := by
            simp only [List.length_cons]
            omega
          rw [hm1]
          rw [hset]
          simp
        · have hge1 : (1 : Int) ≤ ri := by omega
          have h2 : ri - 1 < ((res.set ri.toNat (slotText lb n)).length : Int) := by
            rw [List.length_set]; omega
          have hih := ih (ri - 1) (res.set ri.toNat (slotText lb n)) hsort' hmem'
            (by omega) h2
          simp only [viewLoop, if_neg hskip, if_neg hres, if_neg (by omega : ¬ri < 0),
            if_neg hri, hst]
          rw [hih]
          have htn : (ri - 1).toNat + 1 = ri.toNat := by omega
          rw [htn]
          set F := rest.filter (qualifies lb bottom) with hF
          rw [hfc]
          set m' := min ri.toNat F.length with hm'
          have hmm : min (ri.toNat + 1) (n :: F).length = m' + 1 := by
            simp only [List.length_cons]
            omega
          rw [hmm]
          have htake : (res.set ri.toNat (slotText lb n)).take (ri.toNat - m')
              = res.take (ri.toNat - m') := by
            rw [hset, List.take_append_of_le_length (by rw [List.length_take]; omega),
              List.take_take]
            congr 1
            omega
          have hdrop : (res.set ri.toNat (slotText lb n)).drop ri.toNat
              = slotText lb n :: res.drop (ri.toNat + 1) := by
            rw [hset]
            have hl : (res.take ri.toNat).length = ri.toNat := by
              rw [List.length_take]; omega
            have hdl := List.drop_left (res.take ri.toNat)
              (slotText lb n :: res.drop (ri.toNat + 1))
            rw [hl] at hdl
            exact hdl
          rw [htake, hdrop]
          have hts : (n :: F).take (m' + 1) = n :: F.take m' := by
            rw [List.take_succ_cons]
          rw [hts, List.reverse_cons, List.map_append]
          simp [List.append_assoc]

/-- C9 counterexample: with `count = 0` and a qualifying matched line,
`LogView.GetLines` writes `res[-1]` — a Go runtime fault (`none`) — rather
than returning a 0-element slice: the claim fails at `count = 0`. -/
theorem c9_counterexample :
    LogView.GetLines ⟨"", none, [1]⟩ (buildBuffer 1 ["x"]) 1 0 = none := by
  decide

/-- C9 (amended): for `count >= 1` (at `count = 0` the loop faults on any
resolvable qualifying entry), over a view state whose matched set is
ascending and within the buffer's high-water mark, `GetLines` returns
exactly `count` entries: the newest qualifying matched lines (number at
most `bottomLineNo`, still resolvable) occupy the trailing positions
newest-last, and every leading unfilled position holds `""`. -/
theorem c9_tail_amended (lb : LogBuffer) (lv : LogView) (bottom count : Int)
    (hcount : 1 ≤ count)
    (hwf : lb.nextLineIndex ≤ (lb.lines.length : Int))
    (hsorted : lv.index.Pairwise (· ≤ ·))
    (hmem : ∀ n ∈ lv.index, n ≤ lb.lineNo) :
    ∃ res, lv.GetLines lb bottom count = some res ∧
      res.length = count.toNat ∧
      res = List.replicate
          (count.toNat - min count.toNat (lv.index.filter (qualifies lb bottom)).length) ""
        ++ ((lv.index.filter (qualifies lb bottom)).drop
            ((lv.index.filter (qualifies lb bottom)).length
              - min count.toNat (lv.index.filter (qualifies lb bottom)).length)).map
            (slotText lb) := by
  have hsortrev : lv.index.reverse.Pairwise (fun a b => b ≤ a) := by
    rw [List.pairwise_reverse]
    exact hsorted
  have hmemrev : ∀ n ∈ lv.index.reverse, n ≤ lb.lineNo := by
    intro n hn
    exact hmem n (List.mem_reverse.mp hn)
  have hspec := viewLoop_spec lb bottom hwf lv.index.reverse (count - 1)
    (List.replicate count.toNat "") hsortrev hmemrev (by omega)
    (by rw [List.length_replicate]; omega)
  unfold LogView.GetLines
  rw [if_neg (by omega : ¬count < 0), hspec]
  have hc1 : (count - 1).toNat + 1 = count.toNat := by omega
  rw [hc1, List.filter_reverse, List.length_reverse]
  set Q := lv.index.filter (qualifies lb bottom) with hQ
  set m := min count.toNat Q.length with hmdef
  have hmle : m ≤ Q.length := min_le_right _ _
  have hmlec : m ≤ count.toNat := min_le_left _ _
  rw [List.take_reverse, List.reverse_reverse]
  rw [List.take_replicate, List.drop_replicate]
  refine ⟨_, rfl, ?_, ?_⟩
  · simp only [List.length_append, List.length_replicate, List.length_map,
      List.length_drop]
    omega
  · have h1 : min (count.toNat - m) count.toNat = count.toNat - m := by omega
    have h2 : count.toNat - count.toNat = 0 := by omega
    rw [h1, h2, List.replicate_zero, List.append_nil]

/-- Witness for C9 (amended): matched set [1,2] over a buffer with lines
"a","b", `bottom = 2`, `count = 1` — the single trailing position holds
"b". -/
theorem c9_tail_amended_witness :
    LogView.GetLines ⟨"", none, [1, 2]⟩ (buildBuffer 5 ["a", "b"]) 2 1 = some ["b"] := by
  obtain ⟨res, h1, h2, h3⟩ := c9_tail_amended (buildBuffer 5 ["a", "b"])
    ⟨"", none, [1, 2]⟩ 2 1 (by decide) (by decide) (by decide) (by decide)
  rw [h1, h3]
  decide

/-! ### UTF-8 facts needed for the input-widget claims -/

theorem char_valid_range (c : Char) :
    c.toNat < 0xd800 ∨ (0xdfff < c.toNat ∧ c.toNat < 0x110000) := by
  have h := c.valid
  unfold UInt32.isValidChar at h
  unfold Nat.isValidChar at h
  exact h

theorem utf8EncodeChar_length_pos (c : Char) : 1 ≤ (utf8EncodeChar c).length := by
  simp only [utf8EncodeChar]
  split_ifs <;> simp

/-- Decoding at the start of a well-formed encoding yields the encoded
scalar and its width, whatever bytes follow. -/
theorem decodeRune_encode (c : Char) (rest : List Nat) :
    decodeRune (utf8EncodeChar c ++ rest) = (c.toNat, (utf8EncodeChar c).length) := by
  have hv := char_valid_range c
  by_cases h1 : c.toNat < 0x80
  · have henc : utf8EncodeChar c = [c.toNat] := by
      simp only [utf8EncodeChar]
      rw [if_pos h1]
    rw [henc, List.singleton_append]
    simp only [decodeRune]
    rw [if_pos h1]
    simp
  · by_cases h2 : c.toNat < 0x800
    · have henc : utf8EncodeChar c = [0xC0 + c.toNat / 64, 0x80 + c.toNat % 64] := by
        simp only [utf8EncodeChar]
        rw [if_neg h1, if_pos h2]
      rw [henc]
      simp only [List.cons_append, List.nil_append]
      simp only [decodeRune]
      rw [if_neg (by omega), if_neg (by omega), if_pos (by omega),
        if_pos (by unfold isCont; omega)]
      simp only [Prod.mk.injEq]
      exact ⟨by omega, by simp⟩
    · by_cases h3 : c.toNat < 0x10000
      · have henc : utf8EncodeChar c
            = [0xE0 + c.toNat / 4096, 0x80 + c.toNat / 64 % 64, 0x80 + c.toNat % 64] := by
          simp only [utf8EncodeChar]
          rw [if_neg h1, if_neg h2, if_pos h3]
        rw [henc]
        simp only [List.cons_append, List.nil_append]
        simp only [decodeRune]
        rw [if_neg (by omega), if_neg (by omega), if_neg (by omega), if_pos (by omega)]
        rw [if_pos (by refine ⟨?_, by unfold isCont; omega⟩; unfold accept3; omega)]
        simp only [Prod.mk.injEq]
        exact ⟨by omega, by simp⟩
      · have henc : utf8EncodeChar c
            = [0xF0 + c.toNat / 262144, 0x80 + c.toNat / 4096 % 64,
               0x80 + c.toNat / 64 % 64, 0x80 + c.toNat % 64] := by
          simp only [utf8EncodeChar]
          rw [if_neg h1, if_neg h2, if_neg h3]
        rw [henc]
        simp only [List.cons_append, List.nil_append]
        simp only [decodeRune]
        rw [if_neg (by omega), if_neg (by omega), if_neg (by omega), if_neg (by omega),
          if_pos (by omega)]
        rw [if_pos (by exact ⟨by unfold accept4; omega,
          by unfold isCont; omega, by unfold isCont; omega⟩)]
        simp only [Prod.mk.injEq]
        exact ⟨by omega, by simp⟩

theorem scanBack_start (b : Nat) (bs : List Nat) (w : Nat)
    (hb : ¬isCont b) (hw : 1 ≤ w) : scanBack (b :: bs) w = some 0 := by
  cases w with
  | zero => omega
  | succ w => simp only [scanBack, if_neg hb]

theorem scanBack_cont (b : Nat) (bs : List Nat) (w : Nat)
    (hb : isCont b) (hw : 1 ≤ w) :
    scanBack (b :: bs) w = (scanBack bs (w - 1)).map (· + 1) := by
  cases w with
  | zero => omega
  | succ w =>
    simp only [scanBack, if_pos hb, Nat.add_sub_cancel]

/-- Decoding backwards from the end of a well-formed encoding yields the
encoded scalar and its width, whatever bytes precede it. -/
theorem decodeLastRune_encode (bs : List Nat) (c : Char) :
    decodeLastRune (bs ++ utf8EncodeChar c) = (c.toNat, (utf8EncodeChar c).length) := by
  have hv := char_valid_range c
  have hdec := decodeRune_encode c []
  rw [List.append_nil] at hdec
  by_cases h1 : c.toNat < 0x80
  · have henc : utf8EncodeChar c = [c.toNat] := by
      simp only [utf8EncodeChar]
      rw [if_pos h1]
    rw [henc]
    unfold decodeLastRune
    rw [List.reverse_append]
    simp only [List.reverse_cons, List.reverse_nil, List.nil_append, List.singleton_append]
    simp only [decodeLastRuneAux]
    rw [if_pos h1]
    simp
  · by_cases h2 : c.toNat < 0x800
    · have henc : utf8EncodeChar c = [0xC0 + c.toNat / 64, 0x80 + c.toNat % 64] := by
        simp only [utf8EncodeChar]
        rw [if_neg h1, if_pos h2]
      rw [henc] at hdec ⊢
      unfold decodeLastRune
      have hrev : (bs ++ [0xC0 + c.toNat / 64, 0x80 + c.toNat % 64]).reverse
          = (0x80 + c.toNat % 64) :: (0xC0 + c.toNat / 64) :: bs.reverse := by
        rw [List.reverse_append]
        simp
      have hlen : (bs ++ [0xC0 + c.toNat / 64, 0x80 + c.toNat % 64]).length
          = bs.length + 2 := by simp
      rw [hrev, hlen]
      simp only [decodeLastRuneAux]
      rw [if_neg (by omega)]
      rw [scanBack_start _ _ _ (by unfold isCont; omega) (by omega)]
      simp only [Option.map_some', Option.getD_some]
      rw [show bs.length + 2 - 2 = bs.length by omega]
      have hdl := List.drop_left bs [0xC0 + c.toNat / 64, 0x80 + c.toNat % 64]
      rw [hdl, hdec]
      simp
    · by_cases h3 : c.toNat < 0x10000
      · have henc : utf8EncodeChar c
            = [0xE0 + c.toNat / 4096, 0x80 + c.toNat / 64 % 64, 0x80 + c.toNat % 64] := by
          simp only [utf8EncodeChar]
          rw [if_neg h1, if_neg h2, if_pos h3]
        rw [henc] at hdec ⊢
        unfold decodeLastRune
        have hrev : (bs ++ [0xE0 + c.toNat / 4096, 0x80 + c.toNat / 64 % 64,
              0x80 + c.toNat % 64]).reverse
            = (0x80 + c.toNat % 64) :: (0x80 + c.toNat / 64 % 64)
              :: (0xE0 + c.toNat / 4096) :: bs.reverse := by
          rw [List.reverse_append]
          simp
        have hlen : (bs ++ [0xE0 + c.toNat / 4096, 0x80 + c.toNat / 64 % 64,
            0x80 + c.toNat % 64]).length = bs.length + 3 := by simp
        rw [hrev, hlen]
        simp only [decodeLastRuneAux]
        rw [if_neg (by omega)]
        rw [scanBack_cont _ _ _ (by unfold isCont; omega) (by omega)]
        rw [scanBack_start _ _ _ (by unfold isCont; omega) (by omega)]
        simp only [Option.map_some', Option.getD_some]
        rw [show bs.length + 3 - (0 + 1 + 2) = bs.length by omega]
        have hdl := List.drop_left bs [0xE0 + c.toNat / 4096,
          0x80 + c.toNat / 64 % 64, 0x80 + c.toNat % 64]
        rw [hdl, hdec]
        simp
      · have henc : utf8EncodeChar c
            = [0xF0 + c.toNat / 262144, 0x80 + c.toNat / 4096 % 64,
               0x80 + c.toNat / 64 % 64, 0x80 + c.toNat % 64] := by
          simp only [utf8EncodeChar]
          rw [if_neg h1, if_neg h2, if_neg h3]
        rw [henc] at hdec ⊢
        unfold decodeLastRune
        have hrev : (bs ++ [0xF0 + c.toNat / 262144, 0x80 + c.toNat / 4096 % 64,
              0x80 + c.toNat / 64 % 64, 0x80 + c.toNat % 64]).reverse
            = (0x80 + c.toNat % 64) :: (0x80 + c.toNat / 64 % 64)
              :: (0x80 + c.toNat / 4096 % 64) :: (0xF0 + c.toNat / 262144)
              :: bs.reverse := by
          rw [List.reverse_append]
          simp
        have hlen : (bs ++ [0xF0 + c.toNat / 262144, 0x80 + c.toNat / 4096 % 64,
            0x80 + c.toNat / 64 % 64, 0x80 + c.toNat % 64]).length = bs.length + 4 := by
          simp
        rw [hrev, hlen]
        simp only [decodeLastRuneAux]
        rw [if_neg (by omega)]
        rw [scanBack_cont _ _ _ (by unfold isCont; omega) (by omega)]
        rw [scanBack_cont _ _ _ (by unfold isCont; omega) (by omega)]
        rw [scanBack_start _ _ _ (by unfold isCont; omega) (by omega)]
        simp only [Option.map_some', Option.getD_some]
        rw [show bs.length + 4 - (0 + 1 + 1 + 2) = bs.length by omega]
        have hdl := List.drop_left bs [0xF0 + c.toNat / 262144,
          0x80 + c.toNat / 4096 % 64, 0x80 + c.toNat / 64 % 64, 0x80 + c.toNat % 64]
        rw [hdl, hdec]
        simp

/-! ### C5: cursor coordinate recomputation -/

/-- C5 (the code defect, evaluated): insert '世' (U+4E16, a double-width
character, 3 UTF-8 bytes) into an empty box.  The byte offset becomes 3,
but `cursorOffsetRunes` stays 0 — the claim requires 1, the number of
code points before the cursor — and `cursorOffsetCells` becomes 1, the
rune count, although the rescan (`adjustOffset`) shows the text before
the cursor is 2 display cells wide and 1 code point long: Go's
`MoveCursorTo` assigns both `adjustOffset` results to `cursorOffsetCells`
and never writes `cursorOffsetRunes`. -/
theorem c5_cursor_bug :
    (emptyEditBox.InsertRune '世').cursorOffsetBytes = 3 ∧
    (emptyEditBox.InsertRune '世').cursorOffsetRunes = 0 ∧
    (emptyEditBox.InsertRune '世').cursorOffsetCells = 1 ∧
    adjustOffset (emptyEditBox.InsertRune '世').text 3 = (2, 1) := by
  exact ⟨by decide, by decide, by decide, by decide⟩

/-! ### C8: input-field round trip -/

theorem insertRune_at_end (eb : EditBox) (c : Char)
    (h : eb.cursorOffsetBytes = eb.text.length) :
    (eb.InsertRune c).text = eb.text ++ utf8EncodeChar c ∧
    (eb.InsertRune c).cursorOffsetBytes = eb.text.length + (utf8EncodeChar c).length := by
  have hpos := utf8EncodeChar_length_pos c
  have htext : byteSliceInsert eb.text eb.cursorOffsetBytes (utf8EncodeChar c)
      = eb.text ++ utf8EncodeChar c := by
    unfold byteSliceInsert
    rw [h, List.take_length, List.drop_length, List.append_nil]
  have hdrop : (eb.text ++ utf8EncodeChar c).drop eb.cursorOffsetBytes
      = utf8EncodeChar c := by
    rw [h]
    exact List.drop_left _ _
  have hdec := decodeRune_encode c []
  rw [List.append_nil] at hdec
  simp only [EditBox.InsertRune, EditBox.MoveCursorOneRuneForward,
    EditBox.RuneUnderCursor, EditBox.MoveCursorTo, htext]
  rw [if_neg (by simp only [List.length_append]; omega)]
  rw [hdrop, hdec]
  exact ⟨rfl, by simp [h]⟩

theorem insertString_spec (cs : List Char) : ∀ eb : EditBox,
    eb.cursorOffsetBytes = eb.text.length →
    (insertString eb cs).text = eb.text ++ encodeList cs ∧
    (insertString eb cs).cursorOffsetBytes = (eb.text ++ encodeList cs).length := by
  induction cs with
  | nil =>
    intro eb h
    simp only [insertString, List.foldl_nil, encodeList, List.append_nil]
    exact ⟨trivial, h⟩
  | cons c cs ih =>
    intro eb h
    have hins := insertRune_at_end eb c h
    have hcur : (eb.InsertRune c).cursorOffsetBytes = (eb.InsertRune c).text.length := by
      rw [hins.1, hins.2, List.length_append]
    have hrec := ih (eb.InsertRune c) hcur
    simp only [insertString, List.foldl_cons] at hrec ⊢
    constructor
    · rw [hrec.1, hins.1, encodeList, List.append_assoc]
    · rw [hrec.2, hins.1]
      simp only [encodeList, List.length_append, List.append_assoc]

theorem encodeList_append (xs ys : List Char) :
    encodeList (xs ++ ys) = encodeList xs ++ encodeList ys := by
  induction xs with
  | nil => simp [encodeList]
  | cons c xs ih =>
    rw [show (c :: xs) ++ ys = c :: (xs ++ ys) from rfl]
    simp only [encodeList]
    rw [ih, List.append_assoc]

theorem deleteRuneBackward_last (eb : EditBox) (cs : List Char) (c : Char)
    (htext : eb.text = encodeList cs ++ utf8EncodeChar c)
    (hcur : eb.cursorOffsetBytes = eb.text.length) :
    eb.DeleteRuneBackward.text = encodeList cs ∧
    eb.DeleteRuneBackward.cursorOffsetBytes = (encodeList cs).length := by
  have hpos := utf8EncodeChar_length_pos c
  have hlen : eb.text.length = (encodeList cs).length + (utf8EncodeChar c).length := by
    rw [htext, List.length_append]
  have hne0 : eb.cursorOffsetBytes ≠ 0 := by omega
  have hlast := decodeLastRune_encode (encodeList cs) c
  have htake : eb.text.take eb.cursorOffsetBytes = eb.text := by
    rw [hcur, List.take_length]
  have harg : eb.cursorOffsetBytes - (utf8EncodeChar c).length = (encodeList cs).length := by
    omega
  have heb1 : eb.MoveCursorOneRuneBackward
      = { eb with cursorOffsetBytes := (encodeList cs).length,
                  cursorOffsetCells := (adjustOffset eb.text (encodeList cs).length).2 } := by
    unfold EditBox.MoveCursorOneRuneBackward
    rw [if_neg hne0]
    unfold EditBox.RuneBeforeCursor
    rw [htake]
    rw [show decodeLastRune eb.text = (c.toNat, (utf8EncodeChar c).length) by
      rw [htext]; exact hlast]
    unfold EditBox.MoveCursorTo
    rw [harg]
  have hdrop : eb.text.drop (encodeList cs).length = utf8EncodeChar c := by
    rw [htext]
    exact List.drop_left _ _
  have hdec := decodeRune_encode c []
  rw [List.append_nil] at hdec
  have hrem : byteSliceRemove eb.text (encodeList cs).length
      ((encodeList cs).length + (utf8EncodeChar c).length) = encodeList cs := by
    unfold byteSliceRemove
    rw [show (encodeList cs).length + (utf8EncodeChar c).length = eb.text.length by omega]
    rw [List.drop_length, List.append_nil, htext, List.take_left]
  unfold EditBox.DeleteRuneBackward
  rw [if_neg hne0, heb1]
  simp only [EditBox.RuneUnderCursor]
  rw [hdrop, hdec]
  simp only [hrem]
  exact ⟨trivial, trivial⟩

theorem deleteN_all (cs : List Char) : ∀ eb : EditBox,
    eb.text = encodeList cs → eb.cursorOffsetBytes = eb.text.length →
    (deleteN eb cs.length).text = [] ∧ (deleteN eb cs.length).cursorOffsetBytes = 0 := by
  induction cs using List.reverseRecOn with
  | nil =>
    intro eb ht hc
    simp only [List.length_nil, deleteN]
    refine ⟨ht, ?_⟩
    rw [hc, ht]
    rfl
  | append_singleton cs c ih =>
    intro eb ht hc
    have hencapp : encodeList (cs ++ [c]) = encodeList cs ++ utf8EncodeChar c := by
      rw [encodeList_append]
      simp [encodeList]
    have hdel := deleteRuneBackward_last eb cs c (by rw [ht, hencapp]) hc
    have hlen : (cs ++ [c]).length = cs.length + 1 := by simp
    rw [hlen]
    simp only [deleteN]
    exact ih eb.DeleteRuneBackward hdel.1 (by rw [hdel.2, hdel.1])

/-- C8: Input-field round trip — inserting the code points of any string
one at a time into the empty box and then pressing backspace the same
number of times returns the box to empty text with the byte cursor at 0,
including multi-byte code points and double-width characters (which only
affect the cell/rune fields, not the byte-level state this claim is
about). -/
theorem c8_roundtrip (cs : List Char) :
    (deleteN (insertString emptyEditBox cs) cs.length).text = [] ∧
    (deleteN (insertString emptyEditBox cs) cs.length).cursorOffsetBytes = 0 := by
  have hins := insertString_spec cs emptyEditBox rfl
  have h1 : (insertString emptyEditBox cs).text = encodeList cs := by
    rw [hins.1]
    rfl
  have h2 : (insertString emptyEditBox cs).cursorOffsetBytes
      = (insertString emptyEditBox cs).text.length := by
    rw [hins.2, h1]
    rfl
  exact deleteN_all cs (insertString emptyEditBox cs) h1 h2

end Lolcat
